import Mathlib

/-!
Shallow embedding of the string-storage subsystem of the repository
(`core/src/string/repr.rs` and `core/src/string/avm_string.rs`).

Modelling conventions:
* Character units (`u8` for narrow strings, `u16` for wide strings) are
  modelled uniformly as `Nat`.  `WStr` equality in `ruffle_wstr` compares
  unit values regardless of width, which this representation captures.
* The GC heap of `AvmStringRepr` records is a `List ReprM`; a `Gc` pointer
  is the record's index in that list.  Allocation (`Gc::new`) appends.
* A raw character pointer (`*mut ()` in `repr.rs`) is modelled as a base
  identifying the allocation plus a unit offset.  For buffers owned by a
  record in the arena the base is the owning record's heap index (the
  buffer of a non-dependent record is stored in its own `buf` field); for
  `'static` data the base is the static unit sequence itself.  Pointer
  equality (`first_available == first_requested` in `concat`) becomes
  equality of base-offset pairs.
* Interior mutability (`Cell<u32>` for `chars_used`, the interned bit of
  the `capacity` cell) becomes explicit state passing of the heap.
-/

/-- A character sequence together with its width bit, as in `WStr`. -/
structure WStrM where
  wide : Bool
  units : List Nat
  deriving DecidableEq, Repr

/-- The `Source` enum of `avm_string.rs`: a handle is either a GC record
(`Owned(Gc<AvmStringRepr>)`, the `Nat` being the heap index) or a static
string slice. -/
inductive AvmStringM where
  | owned (addr : Nat)
  | static (s : WStrM)
  deriving DecidableEq, Repr

/-- A raw character pointer: base of the allocation plus unit offset. -/
inductive PtrM where
  | heapPtr (bufAddr : Nat) (off : Nat)
  | statPtr (units : List Nat) (off : Nat)
  deriving DecidableEq, Repr

/-- Pointer arithmetic `ptr.add(char_size * k)`, at unit granularity. -/
def PtrM.addOff : PtrM → Nat → PtrM
  | .heapPtr b o, k => .heapPtr b (o + k)
  | .statPtr u o, k => .statPtr u (o + k)

/-- `AvmStringRepr` of `repr.rs`: pointer, length/width metadata, the
capacity cell (capacity value plus interned bit), the `chars_used` cell
and the optional owner handle.  Non-dependent records additionally carry
the owned buffer contents (`buf`), of length `capacity`. -/
structure ReprM where
  ptr : PtrM
  len : Nat
  wide : Bool
  capacity : Nat
  interned : Bool
  chars_used : Nat
  owner : Option AvmStringM
  buf : List Nat
  deriving DecidableEq, Repr

def defaultRepr : ReprM :=
  { ptr := .heapPtr 0 0, len := 0, wide := false, capacity := 0,
    interned := false, chars_used := 0, owner := none, buf := [] }

/-- The GC arena of string records. -/
abbrev Heap := List ReprM

def getRec (h : Heap) (a : Nat) : ReprM := List.getD h a defaultRepr

def setRec (h : Heap) (a : Nat) (r : ReprM) : Heap := List.set h a r

def Heap.size (h : Heap) : Nat := List.length h

/-- Dereference a raw pointer: read `len` units starting at it. -/
def readPtr (h : Heap) (p : PtrM) (len : Nat) : List Nat :=
  match p with
  | .heapPtr b off => ((getRec h b).buf.drop off).take len
  | .statPtr us off => (us.drop off).take len

/-- `AvmStringRepr::as_wstr`: the record's view, rebuilt from ptr + meta. -/
def reprWStr (h : Heap) (r : ReprM) : WStrM :=
  ⟨r.wide, readPtr h r.ptr r.len⟩

/-- `AvmString::as_wstr`. -/
def asWStr (h : Heap) (s : AvmStringM) : WStrM :=
  match s with
  | .owned a => reprWStr h (getRec h a)
  | .static w => w

def asWStrUnits (h : Heap) (s : AvmStringM) : List Nat :=
  (asWStr h s).units

/-- `WStr::len` of a handle, i.e. the length metadata. -/
def handleLen (h : Heap) (s : AvmStringM) : Nat :=
  match s with
  | .owned a => (getRec h a).len
  | .static w => w.units.length

/-- `WStr::is_wide` of a handle. -/
def isWideH (h : Heap) (s : AvmStringM) : Bool :=
  match s with
  | .owned a => (getRec h a).wide
  | .static w => w.wide

/-- `AvmString::owner`. -/
def ownerH (h : Heap) (s : AvmStringM) : Option AvmStringM :=
  match s with
  | .owned a => (getRec h a).owner
  | .static _ => none

/-- The data pointer of a handle's view (used by slicing in
`new_dependent`: `&s[start..end] as *const WStr`). -/
def handlePtr (h : Heap) (s : AvmStringM) : PtrM :=
  match s with
  | .owned a => (getRec h a).ptr
  | .static w => .statPtr w.units 0

/-- A handle is valid when any heap index it carries is in range. -/
def hWF (h : Heap) (s : AvmStringM) : Prop :=
  match s with
  | .owned a => a < h.size
  | .static _ => True

instance (h : Heap) (s : AvmStringM) : Decidable (hWF h s) := by
  cases s with
  | owned a => exact inferInstanceAs (Decidable (a < h.size))
  | static w => exact inferInstanceAs (Decidable True)

/-! ## Constructors (`repr.rs`) -/

/-- A freshly produced `WString`: contents, width, and buffer capacity
(`into_raw_parts` returns `(ptr, meta, cap)`). -/
structure WStringM where
  wide : Bool
  units : List Nat
  cap : Nat
  deriving DecidableEq, Repr

/-- `AvmStringRepr::from_raw(s, interned)`.  `selfAddr` is the heap index
the record is about to be allocated at; its fresh buffer is identified by
that index (see the pointer convention above).  `chars_used := len`. -/
def fromRaw (selfAddr : Nat) (s : WStringM) (interned : Bool) : ReprM :=
  { ptr := .heapPtr selfAddr 0,
    len := s.units.length,
    wide := s.wide,
    capacity := s.cap,
    interned := interned,
    chars_used := s.units.length,
    owner := none,
    buf := s.units ++ List.replicate (s.cap - s.units.length) 0 }

/-- `AvmStringRepr::new_dependent(s, start, end)`: slice `&s[start..end]`,
take its pointer and metadata, store `capacity = 0`, `chars_used = 0`,
not interned, and owner `s.owner().unwrap_or(s)`. -/
def newDependentRepr (h : Heap) (s : AvmStringM) (start endp : Nat) : ReprM :=
  { ptr := (handlePtr h s).addOff start,
    len := endp - start,
    wide := isWideH h s,
    capacity := 0,
    interned := false,
    chars_used := 0,
    owner := some ((ownerH h s).getD s),
    buf := [] }

/-- `AvmStringRepr::new_dependent_raw(owner, ptr, length, is_wide)`. -/
def newDependentRawRepr (owner : AvmStringM) (p : PtrM) (length : Nat)
    (is_wide : Bool) : ReprM :=
  { ptr := p,
    len := length,
    wide := is_wide,
    capacity := 0,
    interned := false,
    chars_used := 0,
    owner := some owner,
    buf := [] }

/-- `AvmStringRepr::mark_interned`: panics (modelled as `none`) on a
dependent record; otherwise rebuilds the capacity cell with the same
capacity value and the interned bit set. -/
def markInterned (r : ReprM) : Option ReprM :=
  if r.owner.isSome then none
  else some { r with interned := true }

/-- `AvmString::new_dependent`: build the dependent record and allocate it
(`Gc::new`), returning the updated heap and the owned handle. -/
def newDependent (h : Heap) (s : AvmStringM) (start endp : Nat) :
    Heap × AvmStringM :=
  (List.append h [newDependentRepr h s start endp], .owned h.size)

/-! ## Concatenation (`AvmString::concat`) -/

/-- Which branch of `concat` produced the result. -/
inductive CPath where
  | emptyLeft | emptyRight | inPlace | slow
  deriving DecidableEq, Repr

structure CRes where
  heap : Heap
  res : AvmStringM
  path : CPath

/-- The pattern match `(Source::Owned(left), Source::Owned(left_origin))`
with `left_origin_s = left.owner().unwrap_or(left)`: returns the heap
indices of `left` and of its origin when both are `Owned`. -/
def inPlaceInfo (h : Heap) (left : AvmStringM) : Option (Nat × Nat) :=
  match left with
  | .owned la =>
    match (getRec h la).owner with
    | none => some (la, la)
    | some (.owned oa) => some (la, oa)
    | some (.static _) => none
  | .static _ => none

/-- `std::ptr::copy_nonoverlapping(data, buf + pos, ...)`: overwrite
`data.length` units of `buf` starting at unit offset `pos`. -/
def listWrite (buf : List Nat) (pos : Nat) (data : List Nat) : List Nat :=
  buf.take pos ++ data ++ buf.drop (pos + data.length)

/-- The slow (copying) path of `concat`: growth-headroom capacity, a fresh
`WString` holding `left ++ right`, allocated as a new non-dependent,
non-interned record via `Self::new`/`from_raw`. -/
def concatSlow (h : Heap) (left right : AvmStringM) : CRes :=
  let n := handleLen h left + handleLen h right
  let newCapacity :=
    if n < 32 then 32
    else if n > 1024 * 1024 then n + 1024 * 1024
    else n * 2
  let out : WStringM :=
    ⟨isWideH h left || isWideH h right,
     asWStrUnits h left ++ asWStrUnits h right,
     newCapacity⟩
  ⟨List.append h [fromRaw h.size out false], .owned h.size, .slow⟩

/-- `AvmString::concat`.  Mirrors the source statement by statement; the
in-place attempt computes `first_available` and `first_requested` with the
same base pointers as the code (`left_origin.raw_ptr()` for both — see
`avm_string.rs` lines 123–124), compares them, checks spare capacity,
copies `right`'s units after the published region, bumps `chars_used`, and
returns a `new_dependent_raw` record over `left.len() + right.len()`
units. -/
def concatImpl (h : Heap) (left right : AvmStringM) : CRes :=
  if handleLen h left = 0 then ⟨h, right, .emptyLeft⟩
  else if handleLen h right = 0 then ⟨h, left, .emptyRight⟩
  else
    let fast :=
      if isWideH h left = isWideH h right then inPlaceInfo h left else none
    match fast with
    | some (la, oa) =>
      let lrec := getRec h la
      let orec := getRec h oa
      let leftOriginS := (ownerH h (.owned la)).getD (.owned la)
      let leftOriginPtr := orec.ptr
      let leftPtr := orec.ptr
      let firstAvailable := leftOriginPtr.addOff orec.chars_used
      let firstRequested := leftPtr.addOff lrec.len
      let charsAvailable :=
        if firstAvailable = firstRequested
        then orec.capacity - orec.chars_used else 0
      if handleLen h right ≤ charsAvailable then
        let rUnits := asWStrUnits h right
        let h1 := setRec h oa
          { orec with
            buf := listWrite orec.buf orec.chars_used rUnits,
            chars_used := orec.chars_used + handleLen h right }
        let repr := newDependentRawRepr leftOriginS leftPtr
          (lrec.len + handleLen h right) lrec.wide
        ⟨List.append h1 [repr], .owned h1.size, .inPlace⟩
      else concatSlow h left right
    | none => concatSlow h left right

/-! ## Equality and `to_fully_owned` (`avm_string.rs`) -/

/-- `PartialEq for AvmString`: fast-accept on identical records
(`Gc::ptr_eq`), fast-reject on two distinct interned records, otherwise
character-wise `WStr` comparison (which ignores width). -/
def eqAvm (h : Heap) (x y : AvmStringM) : Bool :=
  match x, y with
  | .owned a, .owned b =>
    if a = b then true
    else if (getRec h a).interned && (getRec h b).interned then false
    else asWStrUnits h x = asWStrUnits h y
  | _, _ => asWStrUnits h x = asWStrUnits h y

/-- `AvmString::to_fully_owned`: reuse the record when it is owned and
non-dependent; otherwise allocate a fresh `from_raw` copy of the content
(`WString::from` allocates an exact-fit buffer).  Returns the heap and the
index of the resulting non-dependent record. -/
def toFullyOwned (h : Heap) (s : AvmStringM) : Heap × Nat :=
  match s with
  | .owned a =>
    if (getRec h a).owner.isSome then
      let w := asWStr h s
      (List.append h [fromRaw h.size ⟨w.wide, w.units, w.units.length⟩ false],
       h.size)
    else (h, a)
  | .static w =>
    (List.append h [fromRaw h.size ⟨w.wide, w.units, w.units.length⟩ false],
     h.size)

/-! ## Invariants -/

/-- The per-record invariant stated in the spec (§3): a dependent record
has `capacity = 0` and `chars_used = 0`; a non-dependent record has
`len ≤ chars_used ≤ capacity`. -/
def recInv (r : ReprM) : Prop :=
  match r.owner with
  | some _ => r.capacity = 0 ∧ r.chars_used = 0
  | none => r.len ≤ r.chars_used ∧ r.chars_used ≤ r.capacity

instance (r : ReprM) : Decidable (recInv r) := by
  unfold recInv; exact match r.owner with
  | some _ => inferInstanceAs (Decidable (_ ∧ _))
  | none => inferInstanceAs (Decidable (_ ∧ _))

/-- All records of the heap satisfy `recInv`. -/
def heapInv (h : Heap) : Prop := ∀ r ∈ h, recInv r

instance (h : Heap) : Decidable (heapInv h) :=
  inferInstanceAs (Decidable (∀ r ∈ h, recInv r))

/-- Full well-formedness of the record stored at heap index `selfAddr`:
`recInv` plus the pointer discipline the unsafe code of `concat` relies on
(its own comment, `avm_string.rs` lines 115–121).  A non-dependent record
points at its own buffer, whose length is its capacity.  A dependent
record's owner handle is non-dependent, has the same width, and the
dependent view lies inside the owner's published region
(`owner.chars_used` for heap owners, the whole sequence for statics). -/
def recWF (h : Heap) (selfAddr : Nat) (r : ReprM) : Prop :=
  match r.owner with
  | none =>
    r.ptr = .heapPtr selfAddr 0 ∧ r.buf.length = r.capacity ∧
      r.len ≤ r.chars_used ∧ r.chars_used ≤ r.capacity
  | some w =>
    r.capacity = 0 ∧ r.chars_used = 0 ∧ r.interned = false ∧
    match w, r.ptr with
    | .owned b, .heapPtr b' off =>
      b' = b ∧ b < h.size ∧ (getRec h b).owner = none ∧
        (getRec h b).wide = r.wide ∧ off + r.len ≤ (getRec h b).chars_used
    | .static sw, .statPtr us off =>
      us = sw.units ∧ sw.wide = r.wide ∧ off + r.len ≤ us.length
    | _, _ => False

instance (h : Heap) (a : Nat) (r : ReprM) : Decidable (recWF h a r) := by
  unfold recWF
  exact match r.owner with
  | none => inferInstanceAs (Decidable (_ ∧ _))
  | some w => by
    refine @instDecidableAnd _ _ inferInstance ?_
    refine @instDecidableAnd _ _ inferInstance ?_
    refine @instDecidableAnd _ _ inferInstance ?_
    exact match w, r.ptr with
    | .owned b, .heapPtr b' off => inferInstanceAs (Decidable (_ ∧ _))
    | .owned b, .statPtr _ _ => inferInstanceAs (Decidable False)
    | .static sw, .statPtr us off => inferInstanceAs (Decidable (_ ∧ _))
    | .static sw, .heapPtr _ _ => inferInstanceAs (Decidable False)

/-- Heap-wide well-formedness. -/
def heapWF (h : Heap) : Prop :=
  ∀ a, a < h.size → recWF h a (getRec h a)

instance (h : Heap) : Decidable (heapWF h) :=
  inferInstanceAs (Decidable (∀ a, a < h.size → recWF h a (getRec h a)))

/-- The interning-table guarantee (§4.4 of the spec): no two distinct
interned records hold equal character content. -/
def internUniq (h : Heap) : Prop :=
  ∀ i, i < h.size → ∀ j, j < h.size → i ≠ j →
    (getRec h i).interned = true → (getRec h j).interned = true →
    asWStrUnits h (.owned i) ≠ asWStrUnits h (.owned j)

instance (h : Heap) : Decidable (internUniq h) := by
  unfold internUniq
  exact Nat.decidableBallLT _ _

/-! ## Concrete test fixtures

Small concrete states used to instantiate the theorems below.  Characters
are ASCII codes: `97 = a`, `98 = b`, `99 = c`, `100 = d`, `101 = e`. -/

/-- A heap holding one owning record with content `"ab"` and spare
capacity, as produced by a slow-path concatenation. -/
def exH0 : Heap := [fromRaw 0 ⟨false, [97, 98], 32⟩ false]

def exA : AvmStringM := .owned 0

def exC : AvmStringM := .static ⟨false, [99]⟩

def exD : AvmStringM := .static ⟨false, [100]⟩

def exE : AvmStringM := .static ⟨false, [101]⟩

/-- `b = concat(a, "c")` on `exH0`: takes the in-place path. -/
def exStep1 : CRes := concatImpl exH0 exA exC

/-- `c = concat(a, "d")` computed after `b`. -/
def exStep2 : CRes := concatImpl exStep1.heap exA exD

/-- A heap holding one owning record with content `"abcd"`, all four
characters published (`chars_used = 4`), capacity 32. -/
def exH4 : Heap := [fromRaw 0 ⟨false, [97, 98, 99, 100], 32⟩ false]

/-- The heap after carving the dependent substring `"bcd"` out of the
`"abcd"` record (offset 1, end of published data). -/
def exH4d : Heap := (newDependent exH4 (.owned 0) 1 4).1

/-- The dependent substring handle `"bcd"`. -/
def exLeft : AvmStringM := (newDependent exH4 (.owned 0) 1 4).2

/-- A heap holding one owning record with empty content. -/
def exHEmpty : Heap := [fromRaw 0 ⟨false, [], 0⟩ false]

def exEmptyStatic : AvmStringM := .static ⟨false, []⟩

/-! ## Basic heap lemmas -/

theorem Heap.size_eq (h : Heap) : h.size = h.length := rfl

theorem size_append (h : Heap) (l : List ReprM) :
    Heap.size (List.append h l) = h.size + l.length := by
  simp [Heap.size_eq]

theorem size_setRec (h : Heap) (a : Nat) (r : ReprM) :
    (setRec h a r).size = h.size := by
  simp [Heap.size_eq, setRec]

theorem getRec_append (h : Heap) (l : List ReprM) (a : Nat) (ha : a < h.size) :
    getRec (List.append h l) a = getRec h a := by
  simp only [getRec, List.append_eq]
  exact List.getD_append h l defaultRepr a ha

theorem getRec_append_self (h : Heap) (r : ReprM) :
    getRec (List.append h [r]) h.size = r := by
  simp only [getRec, List.append_eq, Heap.size_eq]
  rw [List.getD_append_right h [r] defaultRepr h.length le_rfl]
  simp

theorem getRec_set_self (h : Heap) (a : Nat) (r : ReprM) (ha : a < h.size) :
    getRec (setRec h a r) a = r := by
  simp only [getRec, setRec, List.getD_eq_getElem?_getD]
  rw [List.getElem?_set_self (by exact ha)]
  simp

theorem getRec_set_ne (h : Heap) (a : Nat) (r : ReprM) (b : Nat) (hab : a ≠ b) :
    getRec (setRec h a r) b = getRec h b := by
  simp only [getRec, setRec, List.getD_eq_getElem?_getD]
  rw [List.getElem?_set_ne hab]

/-! ## `listWrite` lemmas -/

theorem length_listWrite (buf data : List Nat) (pos : Nat)
    (hle : pos + data.length ≤ buf.length) :
    (listWrite buf pos data).length = buf.length := by
  simp only [listWrite, List.length_append, List.length_take, List.length_drop]
  omega

theorem read_listWrite_prefix (buf data : List Nat) (pos off len : Nat)
    (hol : off + len ≤ pos) (hpb : pos ≤ buf.length) :
    ((listWrite buf pos data).drop off).take len = (buf.drop off).take len := by
  have h1 : ((listWrite buf pos data).drop off).take len
      = ((buf.take pos).drop off).take len := by
    simp only [listWrite, List.append_assoc]
    rw [List.drop_append_of_le_length (by simp; omega),
      List.take_append_of_le_length (by simp; omega)]
  rw [h1, List.drop_take]
  rw [List.take_take]
  congr 1
  omega

theorem read_listWrite_data (buf data : List Nat) (pos : Nat)
    (hpb : pos ≤ buf.length) :
    ((listWrite buf pos data).drop pos).take data.length = data := by
  simp only [listWrite, List.append_assoc]
  rw [List.drop_append_of_le_length (by simp; omega)]
  have : (buf.take pos).drop pos = [] := by
    simp [List.drop_eq_nil_iff]
  rw [this, List.nil_append, List.take_append_of_le_length le_rfl, List.take_length]

theorem take_listWrite (buf data : List Nat) (pos : Nat)
    (hpb : pos ≤ buf.length) :
    (listWrite buf pos data).take (pos + data.length)
      = buf.take pos ++ data := by
  have hlen : (buf.take pos).length = pos := by simp; omega
  simp only [listWrite, List.append_assoc]
  rw [List.take_append_eq_append_take, hlen]
  have h2 : pos + data.length - pos = data.length := by omega
  rw [h2, List.take_of_length_le (by rw [hlen]; omega),
    List.take_append_of_le_length le_rfl, List.take_length]

/-! ## Well-formedness extraction lemmas -/

theorem heapWF_rec (h : Heap) (hw : heapWF h) (a : Nat) (ha : a < h.size) :
    recWF h a (getRec h a) := hw a ha

theorem recWF_own (h : Heap) (a : Nat) (r : ReprM) (hr : recWF h a r)
    (ho : r.owner = none) :
    r.ptr = .heapPtr a 0 ∧ r.buf.length = r.capacity ∧
      r.len ≤ r.chars_used ∧ r.chars_used ≤ r.capacity := by
  unfold recWF at hr
  rw [ho] at hr
  exact hr

theorem recWF_dep_owned (h : Heap) (a : Nat) (r : ReprM) (b : Nat)
    (hr : recWF h a r) (ho : r.owner = some (.owned b)) :
    r.capacity = 0 ∧ r.chars_used = 0 ∧ r.interned = false ∧
      ∃ off, r.ptr = .heapPtr b off ∧ b < h.size ∧
        (getRec h b).owner = none ∧ (getRec h b).wide = r.wide ∧
        off + r.len ≤ (getRec h b).chars_used := by
  unfold recWF at hr
  rw [ho] at hr
  obtain ⟨h1, h2, h3, h4⟩ := hr
  refine ⟨h1, h2, h3, ?_⟩
  cases hp : r.ptr with
  | heapPtr b' off =>
    rw [hp] at h4
    exact ⟨off, by rw [h4.1], h4.2.1, h4.2.2.1, h4.2.2.2.1, h4.2.2.2.2⟩
  | statPtr us off =>
    rw [hp] at h4
    exact absurd h4 (by simp)

theorem recWF_dep_static (h : Heap) (a : Nat) (r : ReprM) (sw : WStrM)
    (hr : recWF h a r) (ho : r.owner = some (.static sw)) :
    r.capacity = 0 ∧ r.chars_used = 0 ∧ r.interned = false ∧
      ∃ off, r.ptr = .statPtr sw.units off ∧ sw.wide = r.wide ∧
        off + r.len ≤ sw.units.length := by
  unfold recWF at hr
  rw [ho] at hr
  obtain ⟨h1, h2, h3, h4⟩ := hr
  refine ⟨h1, h2, h3, ?_⟩
  cases hp : r.ptr with
  | heapPtr b' off =>
    rw [hp] at h4
    exact absurd h4 (by simp)
  | statPtr us off =>
    rw [hp] at h4
    obtain ⟨hu, hw2, hle⟩ := h4
    subst hu
    exact ⟨off, rfl, hw2, hle⟩

/-! ## View lemmas -/

theorem addOff_inj (p : PtrM) (x y : Nat) :
    p.addOff x = p.addOff y ↔ x = y := by
  cases p <;> simp [PtrM.addOff]

theorem length_asWStrUnits (h : Heap) (hw : heapWF h) (s : AvmStringM)
    (hs : hWF h s) : (asWStrUnits h s).length = handleLen h s := by
  cases s with
  | static w => rfl
  | owned a =>
    have hrec := heapWF_rec h hw a hs
    simp only [asWStrUnits, asWStr, reprWStr, handleLen]
    cases ho : (getRec h a).owner with
    | none =>
      obtain ⟨hp, hbl, hlc, hcc⟩ := recWF_own h a _ hrec ho
      rw [hp]
      simp only [readPtr, List.drop_zero, List.length_take]
      omega
    | some w =>
      cases w with
      | owned b =>
        obtain ⟨-, -, -, off, hp, hb, hbo, -, hle⟩ :=
          recWF_dep_owned h a _ b hrec ho
        obtain ⟨-, hbl, -, hcc⟩ :=
          recWF_own h b _ (heapWF_rec h hw b hb) hbo
        rw [hp]
        simp only [readPtr, List.length_take, List.length_drop]
        omega
      | static sw =>
        obtain ⟨-, -, -, off, hp, -, hle⟩ := recWF_dep_static h a _ sw hrec ho
        rw [hp]
        simp only [readPtr, List.length_take, List.length_drop]
        omega

theorem asWStrUnits_nil_of_len_zero (h : Heap) (hw : heapWF h)
    (s : AvmStringM) (hs : hWF h s) (h0 : handleLen h s = 0) :
    asWStrUnits h s = [] := by
  have := length_asWStrUnits h hw s hs
  rw [h0] at this
  exact List.length_eq_zero.mp this

theorem inPlaceInfo_some (h : Heap) (le : AvmStringM) (la oa : Nat)
    (hi : inPlaceInfo h le = some (la, oa)) :
    le = .owned la ∧
      (((getRec h la).owner = none ∧ oa = la) ∨
        (getRec h la).owner = some (.owned oa)) := by
  cases le with
  | static w => simp [inPlaceInfo] at hi
  | owned a =>
    simp only [inPlaceInfo] at hi
    cases ho : (getRec h a).owner with
    | none =>
      rw [ho] at hi
      simp only [Option.some.injEq, Prod.mk.injEq] at hi
      obtain ⟨h1, h2⟩ := hi
      subst h1
      exact ⟨rfl, Or.inl ⟨ho, h2.symm⟩⟩
    | some w =>
      cases w with
      | owned b =>
        rw [ho] at hi
        simp only [Option.some.injEq, Prod.mk.injEq] at hi
        obtain ⟨h1, h2⟩ := hi
        subst h1
        subst h2
        exact ⟨rfl, Or.inr ho⟩
      | static sw =>
        rw [ho] at hi
        simp at hi

theorem recInv_getRec (h : Heap) (hi : heapInv h) (a : Nat) :
    recInv (getRec h a) := by
  by_cases ha : a < h.length
  · rw [getRec, List.getD_eq_getElem h defaultRepr ha]
    exact hi _ (List.getElem_mem ha)
  · have : getRec h a = defaultRepr := List.getD_eq_default _ _ (by omega)
    rw [this]
    exact ⟨le_rfl, le_rfl⟩

/-! ## Slow-path lemmas -/

theorem concatSlow_res (h : Heap) (a b : AvmStringM) :
    (concatSlow h a b).res = .owned h.size := rfl

theorem concatSlow_heap (h : Heap) (a b : AvmStringM) :
    (concatSlow h a b).heap = List.append h
      [fromRaw h.size
        ⟨isWideH h a || isWideH h b, asWStrUnits h a ++ asWStrUnits h b,
          let n := handleLen h a + handleLen h b
          if n < 32 then 32
          else if n > 1024 * 1024 then n + 1024 * 1024
          else n * 2⟩ false] := rfl

theorem concatSlow_content (h : Heap) (a b : AvmStringM) :
    asWStrUnits (concatSlow h a b).heap (concatSlow h a b).res
      = asWStrUnits h a ++ asWStrUnits h b := by
  rw [concatSlow_res, concatSlow_heap]
  simp only [asWStrUnits, asWStr, reprWStr]
  rw [getRec_append_self]
  simp only [fromRaw, readPtr]
  rw [getRec_append_self]
  simp only [fromRaw, List.drop_zero]
  rw [List.take_append_of_le_length le_rfl, List.take_length]

theorem concatSlow_newrec_len (h : Heap) (a b : AvmStringM) :
    handleLen (concatSlow h a b).heap (concatSlow h a b).res
      = (asWStrUnits h a ++ asWStrUnits h b).length := by
  rw [concatSlow_res, concatSlow_heap]
  simp only [handleLen]
  rw [getRec_append_self]
  simp [fromRaw]

/-! ## Branch analysis of `concat` -/

/-- Exhaustive description of `concat`'s four branches: the two empty
short-circuits, the copying slow path, and the in-place fast path with the
exact conditions the code checks and the exact state it produces. -/
theorem concatImpl_branches (h : Heap) (a b : AvmStringM) :
    (handleLen h a = 0 ∧ concatImpl h a b = ⟨h, b, .emptyLeft⟩) ∨
    (handleLen h a ≠ 0 ∧ handleLen h b = 0 ∧
      concatImpl h a b = ⟨h, a, .emptyRight⟩) ∨
    (handleLen h a ≠ 0 ∧ handleLen h b ≠ 0 ∧
      concatImpl h a b = concatSlow h a b) ∨
    (∃ la oa,
      handleLen h a ≠ 0 ∧ handleLen h b ≠ 0 ∧
      isWideH h a = isWideH h b ∧ inPlaceInfo h a = some (la, oa) ∧
      (getRec h oa).chars_used = (getRec h la).len ∧
      handleLen h b ≤ (getRec h oa).capacity - (getRec h oa).chars_used ∧
      concatImpl h a b =
        ⟨List.append
            (setRec h oa
              { getRec h oa with
                buf := listWrite (getRec h oa).buf (getRec h oa).chars_used
                  (asWStrUnits h b),
                chars_used := (getRec h oa).chars_used + handleLen h b })
            [newDependentRawRepr ((ownerH h a).getD a) (getRec h oa).ptr
              ((getRec h la).len + handleLen h b) (getRec h la).wide],
          .owned h.size, .inPlace⟩) := by
  by_cases hl0 : handleLen h a = 0
  · exact Or.inl ⟨hl0, by simp only [concatImpl, if_pos hl0]⟩
  · by_cases hr0 : handleLen h b = 0
    · exact Or.inr (Or.inl ⟨hl0, hr0,
        by simp only [concatImpl, if_neg hl0, if_pos hr0]⟩)
    · cases hfast : (if isWideH h a = isWideH h b
          then inPlaceInfo h a else none) with
      | none =>
        refine Or.inr (Or.inr (Or.inl ⟨hl0, hr0, ?_⟩))
        simp only [concatImpl, if_neg hl0, if_neg hr0, hfast]
      | some p =>
        obtain ⟨la, oa⟩ := p
        by_cases haddr : (getRec h oa).ptr.addOff (getRec h oa).chars_used
            = (getRec h oa).ptr.addOff (getRec h la).len
        · by_cases hcap : handleLen h b
              ≤ (getRec h oa).capacity - (getRec h oa).chars_used
          · refine Or.inr (Or.inr (Or.inr ?_))
            have hwide : isWideH h a = isWideH h b := by
              by_contra hc
              rw [if_neg hc] at hfast
              exact Option.noConfusion hfast
            have hinfo : inPlaceInfo h a = some (la, oa) := by
              rwa [if_pos hwide] at hfast
            have hala : a = .owned la := (inPlaceInfo_some h a la oa hinfo).1
            subst hala
            refine ⟨la, oa, hl0, hr0, hwide, hinfo,
              (addOff_inj _ _ _).mp haddr.symm |>.symm, hcap, ?_⟩
            simp only [concatImpl, if_neg hl0, if_neg hr0, hfast,
              if_pos haddr, if_pos hcap, size_setRec]
          · refine Or.inr (Or.inr (Or.inl ⟨hl0, hr0, ?_⟩))
            simp only [concatImpl, if_neg hl0, if_neg hr0, hfast,
              if_pos haddr, if_neg hcap]
        · refine Or.inr (Or.inr (Or.inl ⟨hl0, hr0, ?_⟩))
          have hc0 : ¬ (handleLen h b ≤ (0 : Nat)) := by omega
          simp only [concatImpl, if_neg hl0, if_neg hr0, hfast,
            if_neg haddr, if_neg hc0]

/-- Consequences of well-formedness when `concat`'s in-place condition
(`chars_used` of the origin equals `left`'s length) holds: the origin is a
non-dependent in-range record pointing at its own full buffer, and
`left`'s visible data is exactly the first `left.len` units of that
buffer. -/
theorem fast_facts (h : Heap) (hw : heapWF h) (a : AvmStringM) (la oa : Nat)
    (hs : hWF h a) (hinfo : inPlaceInfo h a = some (la, oa))
    (hcu : (getRec h oa).chars_used = (getRec h la).len) :
    a = .owned la ∧ la < h.size ∧ oa < h.size ∧
      (getRec h oa).owner = none ∧
      (getRec h oa).ptr = .heapPtr oa 0 ∧
      (getRec h oa).buf.length = (getRec h oa).capacity ∧
      (getRec h oa).chars_used ≤ (getRec h oa).capacity ∧
      asWStrUnits h a = (getRec h oa).buf.take (getRec h la).len := by
  obtain ⟨hala, hcases⟩ := inPlaceInfo_some h a la oa hinfo
  subst hala
  have hla : la < h.size := hs
  cases hcases with
  | inl hol =>
    obtain ⟨honone, hoala⟩ := hol
    subst hoala
    obtain ⟨hp, hbl, hlc, hcc⟩ :=
      recWF_own h oa _ (heapWF_rec h hw oa hla) honone
    refine ⟨rfl, hla, hla, honone, hp, hbl, hcc, ?_⟩
    simp only [asWStrUnits, asWStr, reprWStr, hp, readPtr, List.drop_zero]
  | inr hodep =>
    obtain ⟨-, -, -, off, hlptr, hoasize, hoowner, -, hoff⟩ :=
      recWF_dep_owned h la _ oa (heapWF_rec h hw la hla) hodep
    obtain ⟨hoptr, hobl, holc, hocc⟩ :=
      recWF_own h oa _ (heapWF_rec h hw oa hoasize) hoowner
    have hoff0 : off = 0 := by omega
    subst hoff0
    refine ⟨rfl, hla, hoasize, hoowner, hoptr, hobl, hocc, ?_⟩
    simp only [asWStrUnits, asWStr, reprWStr, hlptr, readPtr, List.drop_zero]

/-- Reading the freshly appended record of the in-place path: its view is
read through its pointer against the updated heap. -/
theorem asWStrUnits_fastres (h : Heap) (oa : Nat) (hoa : oa < h.size)
    (X Y : ReprM) (hby : Y.ptr = .heapPtr oa 0) :
    asWStrUnits (List.append (setRec h oa X) [Y]) (.owned h.size)
      = X.buf.take Y.len := by
  simp only [asWStrUnits, asWStr, reprWStr]
  rw [show h.size = Heap.size (setRec h oa X) from (size_setRec h oa X).symm,
    getRec_append_self, hby]
  simp only [readPtr]
  rw [getRec_append _ _ oa (by rw [size_setRec]; exact hoa),
    getRec_set_self h oa X hoa, List.drop_zero]

theorem handleLen_fastres (h : Heap) (oa : Nat) (X Y : ReprM) :
    handleLen (List.append (setRec h oa X) [Y]) (.owned h.size) = Y.len := by
  simp only [handleLen]
  rw [show h.size = Heap.size (setRec h oa X) from (size_setRec h oa X).symm,
    getRec_append_self]

/-- Content correctness of `concat` on every branch. -/
theorem concat_content (h : Heap) (a b : AvmStringM) (hw : heapWF h)
    (ha : hWF h a) (hb : hWF h b) :
    asWStrUnits (concatImpl h a b).heap (concatImpl h a b).res
      = asWStrUnits h a ++ asWStrUnits h b := by
  rcases concatImpl_branches h a b with
    ⟨hl0, heq⟩ | ⟨hl0, hr0, heq⟩ | ⟨hl0, hr0, heq⟩ |
    ⟨la, oa, hl0, hr0, hwide, hinfo, hcu, hcap, heq⟩
  · rw [heq, asWStrUnits_nil_of_len_zero h hw a ha hl0, List.nil_append]
  · rw [heq, asWStrUnits_nil_of_len_zero h hw b hb hr0, List.append_nil]
  · rw [heq, concatSlow_content]
  · obtain ⟨hala, hla, hoa, hoo, hop, hob, hocc, hcontent⟩ :=
      fast_facts h hw a la oa ha hinfo hcu
    have hrlen : (asWStrUnits h b).length = handleLen h b :=
      length_asWStrUnits h hw b hb
    rw [heq]
    rw [asWStrUnits_fastres h oa hoa _ _
      (by simp only [newDependentRawRepr]; exact hop)]
    simp only [newDependentRawRepr]
    rw [← hcu, ← hrlen, take_listWrite _ _ _ (by omega), hcu]
    exact congrArg (· ++ asWStrUnits h b) hcontent.symm

/-- Length correctness of `concat` on every branch. -/
theorem concat_length (h : Heap) (a b : AvmStringM) (hw : heapWF h)
    (ha : hWF h a) (hb : hWF h b) :
    handleLen (concatImpl h a b).heap (concatImpl h a b).res
      = handleLen h a + handleLen h b := by
  rcases concatImpl_branches h a b with
    ⟨hl0, heq⟩ | ⟨hl0, hr0, heq⟩ | ⟨hl0, hr0, heq⟩ |
    ⟨la, oa, hl0, hr0, hwide, hinfo, hcu, hcap, heq⟩
  · simp [heq, hl0]
  · simp [heq, hr0]
  · rw [heq, concatSlow_newrec_len]
    simp only [List.length_append]
    rw [length_asWStrUnits h hw a ha, length_asWStrUnits h hw b hb]
  · obtain ⟨hala, hla, hoa, -, -, -, -, -⟩ :=
      fast_facts h hw a la oa ha hinfo hcu
    rw [heq]
    rw [handleLen_fastres]
    simp only [newDependentRawRepr]
    rw [hala]
    rfl

/-! ## Preservation of published reads -/

theorem take_of_take_prefix (buf buf' : List Nat) (cu len : Nat)
    (hpre : buf'.take cu = buf.take cu) (hl : len ≤ cu) :
    buf'.take len = buf.take len := by
  have e : ∀ bf : List Nat, bf.take len = (bf.take cu).take len := by
    intro bf
    rw [List.take_take]
    congr 1
    omega
  rw [e buf', e buf, hpre]

theorem read_of_take_prefix (buf buf' : List Nat) (cu off len : Nat)
    (hpre : buf'.take cu = buf.take cu) (hol : off + len ≤ cu) :
    (buf'.drop off).take len = (buf.drop off).take len := by
  have e : ∀ bf : List Nat,
      (bf.drop off).take len = ((bf.take cu).drop off).take len := by
    intro bf
    rw [List.drop_take, List.take_take]
    congr 1
    omega
  rw [e buf', e buf, hpre]

theorem take_pos_listWrite (buf data : List Nat) (pos : Nat)
    (hpb : pos ≤ buf.length) :
    (listWrite buf pos data).take pos = buf.take pos := by
  have := read_listWrite_prefix buf data pos 0 pos (by omega) hpb
  simpa using this

/-- Allocating new records does not change the view of any valid handle. -/
theorem asWStr_append (h : Heap) (l : List ReprM) (hw : heapWF h)
    (s : AvmStringM) (hs : hWF h s) :
    asWStr (List.append h l) s = asWStr h s := by
  cases s with
  | static w => rfl
  | owned A =>
    have hA : A < h.size := hs
    have hrec := heapWF_rec h hw A hA
    simp only [asWStr, reprWStr]
    rw [getRec_append h l A hA]
    congr 1
    cases ho : (getRec h A).owner with
    | none =>
      obtain ⟨hp, -, -, -⟩ := recWF_own h A _ hrec ho
      rw [hp]
      simp only [readPtr]
      rw [getRec_append h l A hA]
    | some w =>
      cases w with
      | owned bb =>
        obtain ⟨-, -, -, off, hp, hbb, -, -, -⟩ :=
          recWF_dep_owned h A _ bb hrec ho
        rw [hp]
        simp only [readPtr]
        rw [getRec_append h l bb hbb]
      | static sw =>
        obtain ⟨-, -, -, off, hp, -, -⟩ := recWF_dep_static h A _ sw hrec ho
        rw [hp]
        simp only [readPtr]

/-- The in-place update of `concat` (overwrite of the unpublished region
plus a fresh allocation) does not change the view of any valid handle: all
valid views read inside the owner's published prefix, which the update
keeps intact. -/
theorem asWStr_fastheap (h : Heap) (oa : Nat) (hoa : oa < h.size)
    (hw : heapWF h) (X Y : ReprM)
    (hXp : X.ptr = (getRec h oa).ptr) (hXl : X.len = (getRec h oa).len)
    (hXw : X.wide = (getRec h oa).wide)
    (hXb : X.buf.take (getRec h oa).chars_used
      = (getRec h oa).buf.take (getRec h oa).chars_used)
    (hoo : (getRec h oa).owner = none)
    (s : AvmStringM) (hs : hWF h s) :
    asWStr (List.append (setRec h oa X) [Y]) s = asWStr h s := by
  obtain ⟨hop, hob, hlc, hcc⟩ :=
    recWF_own h oa _ (heapWF_rec h hw oa hoa) hoo
  cases s with
  | static w => rfl
  | owned A =>
    have hA : A < h.size := hs
    have hrec := heapWF_rec h hw A hA
    have hgA : getRec (List.append (setRec h oa X) [Y]) A
        = getRec (setRec h oa X) A :=
      getRec_append _ _ A (by rw [size_setRec]; exact hA)
    have hgoa : getRec (List.append (setRec h oa X) [Y]) oa = X := by
      rw [getRec_append _ _ oa (by rw [size_setRec]; exact hoa),
        getRec_set_self h oa X hoa]
    by_cases hAoa : A = oa
    · subst hAoa
      simp only [asWStr, reprWStr]
      rw [hgA, getRec_set_self h A X hA, hXw, hXp, hXl, hop]
      simp only [readPtr]
      rw [hgoa, List.drop_zero, List.drop_zero]
      congr 1
      exact take_of_take_prefix _ _ _ _ hXb hlc
    · simp only [asWStr, reprWStr]
      rw [hgA, getRec_set_ne h oa X A (Ne.symm hAoa)]
      congr 1
      cases ho : (getRec h A).owner with
      | none =>
        obtain ⟨hp, -, -, -⟩ := recWF_own h A _ hrec ho
        rw [hp]
        simp only [readPtr]
        rw [getRec_append _ _ A (by rw [size_setRec]; exact hA),
          getRec_set_ne h oa X A (Ne.symm hAoa)]
      | some w =>
        cases w with
        | owned bb =>
          obtain ⟨-, -, -, off, hp, hbb, -, -, hoffle⟩ :=
            recWF_dep_owned h A _ bb hrec ho
          rw [hp]
          simp only [readPtr]
          by_cases hbboa : bb = oa
          · subst hbboa
            rw [hgoa]
            exact read_of_take_prefix _ _ _ _ _ hXb hoffle
          · rw [getRec_append _ _ bb (by rw [size_setRec]; exact hbb),
              getRec_set_ne h oa X bb (Ne.symm hbboa)]
        | static sw =>
          obtain ⟨-, -, -, off, hp, -, -⟩ := recWF_dep_static h A _ sw hrec ho
          rw [hp]
          simp only [readPtr]

/-- No branch of `concat` changes the view of any pre-existing valid
handle: the empty branches leave the heap untouched, the slow path only
allocates, and the in-place path writes only past the published region. -/
theorem concat_preserves (h : Heap) (a b : AvmStringM) (hw : heapWF h)
    (ha : hWF h a) (hb : hWF h b) (s : AvmStringM) (hs : hWF h s) :
    asWStr (concatImpl h a b).heap s = asWStr h s := by
  rcases concatImpl_branches h a b with
    ⟨hl0, heq⟩ | ⟨hl0, hr0, heq⟩ | ⟨hl0, hr0, heq⟩ |
    ⟨la, oa, hl0, hr0, hwide, hinfo, hcu, hcap, heq⟩
  · simp [heq]
  · simp [heq]
  · rw [heq, concatSlow_heap]
    exact asWStr_append h _ hw s hs
  · obtain ⟨hala, hla, hoa, hoo, hop, hob, hocc, hcontent⟩ :=
      fast_facts h hw a la oa ha hinfo hcu
    have hrlen : (asWStrUnits h b).length = handleLen h b :=
      length_asWStrUnits h hw b hb
    rw [heq]
    refine asWStr_fastheap h oa hoa hw _ _ ?_ ?_ ?_ ?_ hoo s hs
    · rfl
    · rfl
    · rfl
    · exact take_pos_listWrite _ _ _ (by omega)

/-! ## Invariant preservation -/

theorem length_asWStrUnits_le (h : Heap) (s : AvmStringM) :
    (asWStrUnits h s).length ≤ handleLen h s := by
  cases s with
  | static w => exact le_rfl
  | owned a =>
    simp only [asWStrUnits, asWStr, reprWStr, handleLen]
    cases (getRec h a).ptr <;> simp [readPtr]

/-- Every branch of `concat` preserves the record invariant heap-wide. -/
theorem concat_heapInv (h : Heap) (a b : AvmStringM) (hi : heapInv h) :
    heapInv (concatImpl h a b).heap := by
  rcases concatImpl_branches h a b with
    ⟨hl0, heq⟩ | ⟨hl0, hr0, heq⟩ | ⟨hl0, hr0, heq⟩ |
    ⟨la, oa, hl0, hr0, hwide, hinfo, hcu, hcap, heq⟩
  · simpa [heq] using hi
  · simpa [heq] using hi
  · rw [heq, concatSlow_heap]
    intro r hr
    rcases List.mem_append.mp hr with hmem | hnew
    · exact hi r hmem
    · have hr1 : r = fromRaw h.size
          ⟨isWideH h a || isWideH h b,
           asWStrUnits h a ++ asWStrUnits h b,
           let n := handleLen h a + handleLen h b
           if n < 32 then 32
           else if n > 1024 * 1024 then n + 1024 * 1024
           else n * 2⟩ false := by
        simpa using hnew
      subst hr1
      have hla := length_asWStrUnits_le h a
      have hlb := length_asWStrUnits_le h b
      simp only [recInv, fromRaw]
      constructor
      · exact le_rfl
      · simp only [List.length_append]
        split
        · omega
        · split <;> omega
  · rw [heq]
    intro r hr
    rcases List.mem_append.mp hr with hmem | hnew
    · rcases List.mem_or_eq_of_mem_set hmem with hmem' | hX
      · exact hi r hmem'
      · subst hX
        have horec := recInv_getRec h hi oa
        simp only [recInv] at horec ⊢
        cases ho : (getRec h oa).owner with
        | some w =>
          rw [ho] at horec
          have h2 : (getRec h oa).capacity = 0 ∧
              (getRec h oa).chars_used = 0 := horec
          exact absurd hcap (by omega)
        | none =>
          rw [ho] at horec
          have h2 : (getRec h oa).len ≤ (getRec h oa).chars_used ∧
              (getRec h oa).chars_used ≤ (getRec h oa).capacity := horec
          exact ⟨by omega, by omega⟩
    · have hr1 : r = newDependentRawRepr ((ownerH h a).getD a)
          (getRec h oa).ptr ((getRec h la).len + handleLen h b)
          (getRec h la).wide := by
        simpa using hnew
      subst hr1
      simp [recInv, newDependentRawRepr]

/-- On every branch of `concat`, the published prefix (`chars_used` units)
of every pre-existing record's buffer is unchanged. -/
theorem concat_preserves_published (h : Heap) (a b : AvmStringM)
    (hw : heapWF h) (ha : hWF h a) (hb : hWF h b) (A : Nat) (hA : A < h.size) :
    ((getRec (concatImpl h a b).heap A).buf).take ((getRec h A).chars_used)
      = ((getRec h A).buf).take ((getRec h A).chars_used) := by
  rcases concatImpl_branches h a b with
    ⟨hl0, heq⟩ | ⟨hl0, hr0, heq⟩ | ⟨hl0, hr0, heq⟩ |
    ⟨la, oa, hl0, hr0, hwide, hinfo, hcu, hcap, heq⟩
  · simp [heq]
  · simp [heq]
  · rw [heq, concatSlow_heap, getRec_append _ _ A hA]
  · obtain ⟨hala, hla, hoa, hoo, hop, hob, hocc, hcontent⟩ :=
      fast_facts h hw a la oa ha hinfo hcu
    have hrlen : (asWStrUnits h b).length = handleLen h b :=
      length_asWStrUnits h hw b hb
    rw [heq]
    show ((getRec (List.append (setRec h oa _) [_]) A).buf).take _ = _
    rw [getRec_append _ _ A (by rw [size_setRec]; exact hA)]
    by_cases hAoa : A = oa
    · subst hAoa
      rw [getRec_set_self h A _ hA]
      exact take_pos_listWrite _ _ _ (by omega)
    · rw [getRec_set_ne h oa _ A (Ne.symm hAoa)]

/-! ## Claim theorems -/

/-- C2: for all handles `a`, `b` in a well-formed heap, `concat(a, b)`
yields a handle whose character sequence is exactly `a`'s sequence
followed by `b`'s, and whose length is `len(a) + len(b)`, on every path
and for every width combination. -/
theorem C2_concat_length_content (h : Heap) (a b : AvmStringM)
    (hw : heapWF h) (ha : hWF h a) (hb : hWF h b) :
    asWStrUnits (concatImpl h a b).heap (concatImpl h a b).res
        = asWStrUnits h a ++ asWStrUnits h b ∧
      handleLen (concatImpl h a b).heap (concatImpl h a b).res
        = handleLen h a + handleLen h b :=
  ⟨concat_content h a b hw ha hb, concat_length h a b hw ha hb⟩

theorem C2_witness :
    heapWF exH0 ∧ hWF exH0 exA ∧ hWF exH0 exC ∧
      (asWStrUnits (concatImpl exH0 exA exC).heap
          (concatImpl exH0 exA exC).res
          = asWStrUnits exH0 exA ++ asWStrUnits exH0 exC ∧
        handleLen (concatImpl exH0 exA exC).heap
          (concatImpl exH0 exA exC).res
          = handleLen exH0 exA + handleLen exH0 exC) :=
  ⟨by decide, by decide, by decide,
    C2_concat_length_content exH0 exA exC (by decide) (by decide) (by decide)⟩

/-- `concat` only ever writes the `buf` and `chars_used` of pre-existing
records (and `chars_used` only grows): every other field is untouched. -/
theorem concat_preserves_fields (h : Heap) (a b : AvmStringM) (A : Nat)
    (hA : A < h.size) :
    (getRec (concatImpl h a b).heap A).ptr = (getRec h A).ptr ∧
      (getRec (concatImpl h a b).heap A).len = (getRec h A).len ∧
      (getRec (concatImpl h a b).heap A).wide = (getRec h A).wide ∧
      (getRec (concatImpl h a b).heap A).capacity = (getRec h A).capacity ∧
      (getRec (concatImpl h a b).heap A).interned = (getRec h A).interned ∧
      (getRec (concatImpl h a b).heap A).owner = (getRec h A).owner ∧
      (getRec h A).chars_used
        ≤ (getRec (concatImpl h a b).heap A).chars_used := by
  rcases concatImpl_branches h a b with
    ⟨hl0, heq⟩ | ⟨hl0, hr0, heq⟩ | ⟨hl0, hr0, heq⟩ |
    ⟨la, oa, hl0, hr0, hwide, hinfo, hcu, hcap, heq⟩
  · rw [heq]
    exact ⟨rfl, rfl, rfl, rfl, rfl, rfl, le_rfl⟩
  · rw [heq]
    exact ⟨rfl, rfl, rfl, rfl, rfl, rfl, le_rfl⟩
  · rw [heq, concatSlow_heap, getRec_append _ _ A hA]
    exact ⟨rfl, rfl, rfl, rfl, rfl, rfl, le_rfl⟩
  · rw [heq]
    show (getRec (List.append (setRec h oa _) [_]) A).ptr = _ ∧ _
    rw [getRec_append _ _ A (by rw [size_setRec]; exact hA)]
    by_cases hAoa : A = oa
    · subst hAoa
      rw [getRec_set_self h A _ hA]
      exact ⟨rfl, rfl, rfl, rfl, rfl, rfl, Nat.le_add_right _ _⟩
    · rw [getRec_set_ne h oa _ A (Ne.symm hAoa)]
      exact ⟨rfl, rfl, rfl, rfl, rfl, rfl, le_rfl⟩

/-- C3: on every branch of `concat` (in particular when the in-place path
executes), only buffers and `chars_used` counters are written: every byte
of every record's previously published region (`[0, chars_used)` units)
is unchanged, all other record fields are unchanged, and every handle
valid before the call still reads its original content afterwards. -/
theorem C3_inplace_aliasing_safety (h : Heap) (a b : AvmStringM)
    (hw : heapWF h) (ha : hWF h a) (hb : hWF h b) :
    (∀ A, A < h.size →
      ((getRec (concatImpl h a b).heap A).buf).take ((getRec h A).chars_used)
        = ((getRec h A).buf).take ((getRec h A).chars_used)) ∧
    (∀ A, A < h.size →
      (getRec (concatImpl h a b).heap A).ptr = (getRec h A).ptr ∧
      (getRec (concatImpl h a b).heap A).len = (getRec h A).len ∧
      (getRec (concatImpl h a b).heap A).wide = (getRec h A).wide ∧
      (getRec (concatImpl h a b).heap A).capacity = (getRec h A).capacity ∧
      (getRec (concatImpl h a b).heap A).interned = (getRec h A).interned ∧
      (getRec (concatImpl h a b).heap A).owner = (getRec h A).owner ∧
      (getRec h A).chars_used
        ≤ (getRec (concatImpl h a b).heap A).chars_used) ∧
    (∀ s, hWF h s → asWStr (concatImpl h a b).heap s = asWStr h s) :=
  ⟨fun A hA => concat_preserves_published h a b hw ha hb A hA,
   fun A hA => concat_preserves_fields h a b A hA,
   fun s hs => concat_preserves h a b hw ha hb s hs⟩

/-- C3 witness: the spec's aliasing scenario.  `exStep1` is
`b = concat(a, "c")` (in-place), `exStep2` is `c = concat(a, "d")`
computed after it.  Applying the theorem to the second call shows `b`'s
view survives; concretely `b` still reads `"abc"` and `c` reads `"abd"`. -/
theorem C3_witness :
    heapWF exStep1.heap ∧ hWF exStep1.heap exA ∧ hWF exStep1.heap exD ∧
      exStep1.path = .inPlace ∧
      (∀ s, hWF exStep1.heap s →
        asWStr exStep2.heap s = asWStr exStep1.heap s) ∧
      asWStrUnits exStep2.heap exStep1.res = [97, 98, 99] ∧
      asWStrUnits exStep2.heap exStep2.res = [97, 98, 100] :=
  ⟨by decide, by decide, by decide, by decide,
    (C3_inplace_aliasing_safety exStep1.heap exA exD
      (by decide) (by decide) (by decide)).2.2,
    by decide, by decide⟩

/-- C5 counterexample: with an empty *owned* left operand `a` and the
empty static handle as right operand, `concat(a, empty)` returns the
right operand's handle, not `a` itself — the claim's "returns a itself"
fails when `a` is empty. -/
theorem C5_counterexample :
    handleLen exHEmpty (.owned 0) = 0 ∧
      handleLen exHEmpty exEmptyStatic = 0 ∧
      (concatImpl exHEmpty (.owned 0) exEmptyStatic).res = exEmptyStatic ∧
      (concatImpl exHEmpty (.owned 0) exEmptyStatic).res
        ≠ AvmStringM.owned 0 := by
  decide

/-- C5 (amended): the empty-operand checks are evaluated before every
other step, touch nothing (the heap is returned unchanged — no
allocation, no copy), and return the other operand's handle itself:
`concat(empty, b) = b` always, and `concat(a, empty) = a` whenever `a` is
non-empty (when both operands are empty the right-hand empty handle is
returned). -/
theorem C5_empty_short_circuit (h : Heap) (a b : AvmStringM) :
    (handleLen h a = 0 → concatImpl h a b = ⟨h, b, .emptyLeft⟩) ∧
    (handleLen h a ≠ 0 → handleLen h b = 0 →
      concatImpl h a b = ⟨h, a, .emptyRight⟩) := by
  constructor
  · intro h0
    simp only [concatImpl, if_pos h0]
  · intro h1 h0
    simp only [concatImpl, if_neg h1, if_pos h0]

theorem C5_witness :
    (handleLen ([] : Heap) (.static ⟨false, []⟩) = 0 ∧
      concatImpl ([] : Heap) (.static ⟨false, []⟩) (.static ⟨false, [97]⟩)
        = ⟨[], .static ⟨false, [97]⟩, .emptyLeft⟩) ∧
    (handleLen ([] : Heap) (.static ⟨false, [97]⟩) ≠ 0 ∧
      handleLen ([] : Heap) (.static ⟨false, []⟩) = 0 ∧
      concatImpl ([] : Heap) (.static ⟨false, [97]⟩) (.static ⟨false, []⟩)
        = ⟨[], .static ⟨false, [97]⟩, .emptyRight⟩) :=
  ⟨⟨by decide, (C5_empty_short_circuit [] (.static ⟨false, []⟩)
      (.static ⟨false, [97]⟩)).1 (by decide)⟩,
   ⟨by decide, by decide, (C5_empty_short_circuit [] (.static ⟨false, [97]⟩)
      (.static ⟨false, []⟩)).2 (by decide) (by decide)⟩⟩

/-- C6: the Storage Record invariant — dependent records have
`capacity = 0` and `chars_used = 0`; non-dependent records have
`len ≤ chars_used ≤ capacity` — holds for the output of every constructor
(`from_raw` with any `WString`, whose length never exceeds its capacity;
`new_dependent`; `new_dependent_raw`) and is preserved heap-wide by every
branch of `concat`, including the in-place append. -/
theorem C6_record_invariant :
    (∀ (addr : Nat) (s : WStringM) (i : Bool),
      s.units.length ≤ s.cap → recInv (fromRaw addr s i)) ∧
    (∀ (h : Heap) (s : AvmStringM) (st en : Nat),
      recInv (newDependentRepr h s st en)) ∧
    (∀ (ow : AvmStringM) (p : PtrM) (ln : Nat) (w : Bool),
      recInv (newDependentRawRepr ow p ln w)) ∧
    (∀ (h : Heap) (s : AvmStringM) (st en : Nat), heapInv h →
      heapInv (newDependent h s st en).1) ∧
    (∀ (r r' : ReprM), markInterned r = some r' → recInv r → recInv r') ∧
    (∀ (h : Heap) (a b : AvmStringM), heapInv h →
      heapInv (concatImpl h a b).heap) := by
  refine ⟨?_, ?_, ?_, ?_, ?_, ?_⟩
  · intro addr s i hle
    exact ⟨le_rfl, hle⟩
  · intro h s st en
    exact ⟨rfl, rfl⟩
  · intro ow p ln w
    exact ⟨rfl, rfl⟩
  · intro h s st en hi
    intro r hr
    rcases List.mem_append.mp hr with hmem | hnew
    · exact hi r hmem
    · have hr1 : r = newDependentRepr h s st en := by simpa using hnew
      subst hr1
      exact ⟨rfl, rfl⟩
  · intro r r' hr' hinv
    by_cases hdep : r.owner.isSome
    · simp [markInterned, hdep] at hr'
    · simp only [markInterned, if_neg hdep, Option.some.injEq] at hr'
      subst hr'
      simpa only [recInv] using hinv
  · intro h a b hi
    exact concat_heapInv h a b hi

theorem C6_witness :
    ((1 : Nat) ≤ 3 ∧ recInv (fromRaw 0 ⟨false, [5], 3⟩ false)) ∧
      (heapInv exH0 ∧ heapInv (concatImpl exH0 exA exC).heap) :=
  ⟨⟨by decide, C6_record_invariant.1 0 ⟨false, [5], 3⟩ false (by decide)⟩,
   ⟨by decide, C6_record_invariant.2.2.2.2.2 exH0 exA exC (by decide)⟩⟩

/-- C9: `mark_interned` on a dependent record fails fatally (modelled by
`none`) before touching any state; on a non-dependent record it sets the
interned flag and leaves every other stored value — in particular the
capacity — unchanged. -/
theorem C9_mark_interned (r : ReprM) :
    (r.owner.isSome = true → markInterned r = none) ∧
    (r.owner.isSome = false →
      markInterned r = some { r with interned := true }) ∧
    (∀ r', markInterned r = some r' →
      r'.interned = true ∧ r'.capacity = r.capacity ∧ r'.owner = r.owner ∧
        r'.len = r.len ∧ r'.chars_used = r.chars_used ∧ r'.buf = r.buf ∧
        r'.ptr = r.ptr ∧ r'.wide = r.wide) := by
  refine ⟨?_, ?_, ?_⟩
  · intro hdep
    simp [markInterned, hdep]
  · intro hown
    simp [markInterned, hown]
  · intro r' hr'
    by_cases hdep : r.owner.isSome
    · simp [markInterned, hdep] at hr'
    · simp only [markInterned, if_neg hdep, Option.some.injEq] at hr'
      subst hr'
      exact ⟨rfl, rfl, rfl, rfl, rfl, rfl, rfl, rfl⟩

theorem C9_witness :
    ((newDependentRawRepr (.static ⟨false, [97]⟩) (.statPtr [97] 0) 1
        false).owner.isSome = true ∧
      markInterned (newDependentRawRepr (.static ⟨false, [97]⟩)
        (.statPtr [97] 0) 1 false) = none) ∧
    ((fromRaw 0 ⟨false, [97], 4⟩ false).owner.isSome = false ∧
      markInterned (fromRaw 0 ⟨false, [97], 4⟩ false)
        = some { fromRaw 0 ⟨false, [97], 4⟩ false with interned := true } ∧
      (markInterned (fromRaw 0 ⟨false, [97], 4⟩ false)).map ReprM.capacity
        = some 4) :=
  ⟨⟨by decide, (C9_mark_interned _).1 (by decide)⟩,
   ⟨by decide, (C9_mark_interned _).2.1 (by decide), by decide⟩⟩

/-- C4: on the copying slow path, the fresh record's capacity follows the
exact growth-headroom formula on `n = left.len + right.len` (32 below 32,
`n + 1 MiB` above 1 MiB, `2n` otherwise), and the record is non-dependent,
non-interned, with `chars_used = n`. -/
theorem C4_slow_path_capacity (h : Heap) (a b : AvmStringM) (hw : heapWF h)
    (ha : hWF h a) (hb : hWF h b)
    (hpath : (concatImpl h a b).path = .slow) :
    (concatImpl h a b).res = .owned h.size ∧
      (getRec (concatImpl h a b).heap h.size).capacity
        = (if handleLen h a + handleLen h b < 32 then 32
           else if handleLen h a + handleLen h b > 1024 * 1024
           then handleLen h a + handleLen h b + 1024 * 1024
           else (handleLen h a + handleLen h b) * 2) ∧
      (getRec (concatImpl h a b).heap h.size).owner = none ∧
      (getRec (concatImpl h a b).heap h.size).interned = false ∧
      (getRec (concatImpl h a b).heap h.size).chars_used
        = handleLen h a + handleLen h b := by
  rcases concatImpl_branches h a b with
    ⟨hl0, heq⟩ | ⟨hl0, hr0, heq⟩ | ⟨hl0, hr0, heq⟩ |
    ⟨la, oa, hl0, hr0, hwide, hinfo, hcu, hcap, heq⟩
  · simp [heq] at hpath
  · simp [heq] at hpath
  · rw [heq, concatSlow_res, concatSlow_heap, getRec_append_self]
    refine ⟨rfl, rfl, rfl, rfl, ?_⟩
    simp only [fromRaw, List.length_append]
    rw [length_asWStrUnits h hw a ha, length_asWStrUnits h hw b hb]
  · simp [heq] at hpath

theorem C4_witness :
    heapWF ([] : Heap) ∧
      (concatImpl ([] : Heap) (.static ⟨false, [97]⟩)
        (.static ⟨false, [98]⟩)).path = .slow ∧
      ((concatImpl ([] : Heap) (.static ⟨false, [97]⟩)
          (.static ⟨false, [98]⟩)).res = .owned 0 ∧
        (getRec (concatImpl ([] : Heap) (.static ⟨false, [97]⟩)
            (.static ⟨false, [98]⟩)).heap 0).capacity
          = (if handleLen ([] : Heap) (.static ⟨false, [97]⟩)
                + handleLen ([] : Heap) (.static ⟨false, [98]⟩) < 32 then 32
             else if handleLen ([] : Heap) (.static ⟨false, [97]⟩)
                + handleLen ([] : Heap) (.static ⟨false, [98]⟩) > 1024 * 1024
             then handleLen ([] : Heap) (.static ⟨false, [97]⟩)
                + handleLen ([] : Heap) (.static ⟨false, [98]⟩) + 1024 * 1024
             else (handleLen ([] : Heap) (.static ⟨false, [97]⟩)
                + handleLen ([] : Heap) (.static ⟨false, [98]⟩)) * 2) ∧
        (getRec (concatImpl ([] : Heap) (.static ⟨false, [97]⟩)
            (.static ⟨false, [98]⟩)).heap 0).owner = none ∧
        (getRec (concatImpl ([] : Heap) (.static ⟨false, [97]⟩)
            (.static ⟨false, [98]⟩)).heap 0).interned = false ∧
        (getRec (concatImpl ([] : Heap) (.static ⟨false, [97]⟩)
            (.static ⟨false, [98]⟩)).heap 0).chars_used
          = handleLen ([] : Heap) (.static ⟨false, [97]⟩)
            + handleLen ([] : Heap) (.static ⟨false, [98]⟩)) ∧
      (getRec (concatImpl ([] : Heap) (.static ⟨false, [97]⟩)
          (.static ⟨false, [98]⟩)).heap 0).capacity = 32 :=
  ⟨by decide, by decide,
    C4_slow_path_capacity [] (.static ⟨false, [97]⟩) (.static ⟨false, [98]⟩)
      (by decide) (by decide) (by decide) (by decide),
    by decide⟩

/-- C1: divergence between the spec's in-place condition and the code.
In `exH4d` the dependent handle `exLeft = "bcd"` (offset 1 of the owner's
`"abcd"`, published tail at offset 4) satisfies every condition of the
spec's in-place path: widths match, `left` is an owning reference, the
spec's `first_requested = left.buffer_start + left.length * char_size`
equals `first_available = owner.buffer_start + owner.used * char_size`,
and spare capacity suffices.  Yet the code (which computes
`first_requested` from `left_origin.raw_ptr()` instead of `left`'s own
pointer, `avm_string.rs` line 124) takes the copying slow path: it
allocates a fresh non-dependent record and leaves the owner's
`chars_used` untouched. -/
theorem C1_first_requested_divergence :
    isWideH exH4d exLeft = isWideH exH4d exE ∧
      exLeft = .owned 1 ∧
      (getRec exH4d 1).owner = some (.owned 0) ∧
      (getRec exH4d 1).ptr.addOff (getRec exH4d 1).len
        = (getRec exH4d 0).ptr.addOff (getRec exH4d 0).chars_used ∧
      handleLen exH4d exE
        ≤ (getRec exH4d 0).capacity - (getRec exH4d 0).chars_used ∧
      (concatImpl exH4d exLeft exE).path = .slow ∧
      (concatImpl exH4d exLeft exE).res = .owned 2 ∧
      (getRec (concatImpl exH4d exLeft exE).heap 2).owner = none ∧
      (getRec (concatImpl exH4d exLeft exE).heap 0).chars_used = 4 := by
  decide

/-! ## Substring lemmas -/

theorem readPtr_append (h : Heap) (l : List ReprM) (p : PtrM) (L : Nat)
    (hp : ∀ b off, p = .heapPtr b off → b < h.size) :
    readPtr (List.append h l) p L = readPtr h p L := by
  cases p with
  | heapPtr b off =>
    simp only [readPtr]
    rw [getRec_append h l b (hp b off rfl)]
  | statPtr us off => rfl

theorem readPtr_addOff (h : Heap) (p : PtrM) (i j L : Nat) (hj : j ≤ L) :
    readPtr h (p.addOff i) (j - i)
      = ((readPtr h p L).drop i).take (j - i) := by
  cases p with
  | heapPtr b off =>
    simp only [PtrM.addOff, readPtr]
    rw [List.drop_take, List.drop_drop, List.take_take]
    congr 1
    omega
  | statPtr us off =>
    simp only [PtrM.addOff, readPtr]
    rw [List.drop_take, List.drop_drop, List.take_take]
    congr 1
    omega

theorem readPtr_handle (h : Heap) (s : AvmStringM) :
    readPtr h (handlePtr h s) (handleLen h s) = asWStrUnits h s := by
  cases s with
  | owned A => rfl
  | static w => simp [handlePtr, handleLen, readPtr, asWStrUnits, asWStr]

theorem handlePtr_base (h : Heap) (hw : heapWF h) (s : AvmStringM)
    (hs : hWF h s) (b off : Nat) (hp : handlePtr h s = .heapPtr b off) :
    b < h.size := by
  cases s with
  | static w => simp [handlePtr] at hp
  | owned A =>
    have hA : A < h.size := hs
    have hrec := heapWF_rec h hw A hA
    simp only [handlePtr] at hp
    cases ho : (getRec h A).owner with
    | none =>
      obtain ⟨hp2, -, -, -⟩ := recWF_own h A _ hrec ho
      rw [hp2] at hp
      cases hp
      exact hA
    | some w =>
      cases w with
      | owned bb =>
        obtain ⟨-, -, -, off2, hp2, hbb, -, -, -⟩ :=
          recWF_dep_owned h A _ bb hrec ho
        rw [hp2] at hp
        cases hp
        exact hbb
      | static sw =>
        obtain ⟨-, -, -, off2, hp2, -, -⟩ := recWF_dep_static h A _ sw hrec ho
        rw [hp2] at hp
        cases hp

/-- C7: `substring` (`new_dependent`) is zero-copy: it allocates exactly
one new record that owns no buffer (`buf = []`, `capacity = 0`) and whose
pointer aliases `s`'s data at offset `i`; its stored owner is
`s.owner().unwrap_or(s)`, the ultimate non-dependent ancestor (so the
owner of a dependent record is never itself dependent and ownership
chains have length at most one); and its view is exactly the
`[i, j)` slice of `s`'s view. -/
theorem C7_substring_dependent (h : Heap) (s : AvmStringM) (i j : Nat)
    (hw : heapWF h) (hs : hWF h s) (hij : i ≤ j) (hj : j ≤ handleLen h s) :
    (newDependent h s i j).1 = List.append h [newDependentRepr h s i j] ∧
      (newDependent h s i j).2 = .owned h.size ∧
      (newDependentRepr h s i j).owner = some ((ownerH h s).getD s) ∧
      ownerH h ((ownerH h s).getD s) = none ∧
      (newDependentRepr h s i j).buf = [] ∧
      (newDependentRepr h s i j).capacity = 0 ∧
      (newDependentRepr h s i j).ptr = (handlePtr h s).addOff i ∧
      asWStrUnits (newDependent h s i j).1 (newDependent h s i j).2
        = ((asWStrUnits h s).drop i).take (j - i) := by
  refine ⟨rfl, rfl, rfl, ?_, rfl, rfl, rfl, ?_⟩
  · cases s with
    | static w => rfl
    | owned A =>
      have hA : A < h.size := hs
      have hrec := heapWF_rec h hw A hA
      cases ho : (getRec h A).owner with
      | none => simp [ownerH, ho]
      | some w =>
        cases w with
        | owned bb =>
          obtain ⟨-, -, -, off, hp, hbb, hbo, -, -⟩ :=
            recWF_dep_owned h A _ bb hrec ho
          simp [ownerH, ho, hbo]
        | static sw =>
          simp [ownerH, ho]
  · have h1 : asWStrUnits (newDependent h s i j).1 (newDependent h s i j).2
        = readPtr (List.append h [newDependentRepr h s i j])
            ((handlePtr h s).addOff i) (j - i) := by
      show asWStrUnits (List.append h [newDependentRepr h s i j])
        (.owned h.size) = _
      simp only [asWStrUnits, asWStr, reprWStr]
      rw [getRec_append_self]
      rfl
    rw [h1]
    rw [readPtr_append h _ _ _ ?_]
    · rw [readPtr_addOff h _ i j (handleLen h s) hj, readPtr_handle]
    · intro b off hp
      cases hph : handlePtr h s with
      | heapPtr b2 off2 =>
        rw [hph] at hp
        simp only [PtrM.addOff, PtrM.heapPtr.injEq] at hp
        obtain ⟨hb, -⟩ := hp
        subst hb
        exact handlePtr_base h hw s hs _ off2 hph
      | statPtr us off2 =>
        rw [hph] at hp
        simp [PtrM.addOff] at hp

theorem C7_witness :
    heapWF exH4 ∧ hWF exH4 (.owned 0) ∧ (1 : Nat) ≤ 4 ∧
      4 ≤ handleLen exH4 (.owned 0) ∧
      ((newDependent exH4 (.owned 0) 1 4).1
          = List.append exH4 [newDependentRepr exH4 (.owned 0) 1 4] ∧
        (newDependent exH4 (.owned 0) 1 4).2 = .owned (Heap.size exH4) ∧
        (newDependentRepr exH4 (.owned 0) 1 4).owner
          = some ((ownerH exH4 (.owned 0)).getD (.owned 0)) ∧
        ownerH exH4 ((ownerH exH4 (.owned 0)).getD (.owned 0)) = none ∧
        (newDependentRepr exH4 (.owned 0) 1 4).buf = [] ∧
        (newDependentRepr exH4 (.owned 0) 1 4).capacity = 0 ∧
        (newDependentRepr exH4 (.owned 0) 1 4).ptr
          = (handlePtr exH4 (.owned 0)).addOff 1 ∧
        asWStrUnits (newDependent exH4 (.owned 0) 1 4).1
            (newDependent exH4 (.owned 0) 1 4).2
          = ((asWStrUnits exH4 (.owned 0)).drop 1).take (4 - 1)) ∧
      asWStrUnits exH4d exLeft = [98, 99, 100] :=
  ⟨by decide, by decide, by decide, by decide,
    C7_substring_dependent exH4 (.owned 0) 1 4
      (by decide) (by decide) (by decide) (by decide),
    by decide⟩

/-- C8: handle equality fast-accepts two owning references to the same
record, fast-rejects two distinct interned records, and otherwise falls
back to character-wise comparison; under uniqueness of interned contents,
equality holds exactly when the character contents are equal. -/
theorem C8_handle_equality (h : Heap) (x y : AvmStringM) (hx : hWF h x)
    (hy : hWF h y) (huniq : internUniq h) :
    (∀ i, x = .owned i → y = .owned i → eqAvm h x y = true) ∧
      (∀ i j, x = .owned i → y = .owned j → i ≠ j →
        (getRec h i).interned = true → (getRec h j).interned = true →
        eqAvm h x y = false) ∧
      (eqAvm h x y = true ↔ asWStrUnits h x = asWStrUnits h y) := by
  refine ⟨?_, ?_, ?_⟩
  · rintro i rfl rfl
    simp [eqAvm]
  · rintro i j rfl rfl hne hi hj
    simp [eqAvm, hne, hi, hj]
  · cases x with
    | static wx =>
      cases y <;> simp [eqAvm, asWStrUnits]
    | owned A =>
      cases y with
      | static wy => simp [eqAvm, asWStrUnits]
      | owned B =>
        by_cases hab : A = B
        · subst hab
          simp [eqAvm]
        · by_cases hint : (getRec h A).interned = true
            ∧ (getRec h B).interned = true
          · have hne := (huniq : ∀ i, i < h.size → ∀ j, j < h.size →
              i ≠ j → (getRec h i).interned = true →
              (getRec h j).interned = true →
              asWStrUnits h (.owned i) ≠ asWStrUnits h (.owned j))
              A hx B hy hab hint.1 hint.2
            simp only [eqAvm, if_neg hab, hint.1, hint.2, Bool.and_self,
              if_true]
            constructor
            · intro hfalse
              exact absurd hfalse (by simp)
            · intro heqc
              exact absurd heqc hne
          · have hcond : ((getRec h A).interned && (getRec h B).interned)
                ≠ true := by
              simpa [Bool.and_eq_true] using hint
            simp [eqAvm, hab, hcond]

theorem C8_witness :
    hWF [fromRaw 0 ⟨false, [97], 1⟩ true, fromRaw 1 ⟨false, [98], 1⟩ true]
        (.owned 0) ∧
      internUniq [fromRaw 0 ⟨false, [97], 1⟩ true,
        fromRaw 1 ⟨false, [98], 1⟩ true] ∧
      (eqAvm [fromRaw 0 ⟨false, [97], 1⟩ true,
          fromRaw 1 ⟨false, [98], 1⟩ true] (.owned 0) (.owned 1) = true
        ↔ asWStrUnits [fromRaw 0 ⟨false, [97], 1⟩ true,
            fromRaw 1 ⟨false, [98], 1⟩ true] (.owned 0)
          = asWStrUnits [fromRaw 0 ⟨false, [97], 1⟩ true,
            fromRaw 1 ⟨false, [98], 1⟩ true] (.owned 1)) ∧
      eqAvm [fromRaw 0 ⟨false, [97], 1⟩ true,
        fromRaw 1 ⟨false, [98], 1⟩ true] (.owned 0) (.owned 1) = false :=
  ⟨by decide, by decide,
    (C8_handle_equality [fromRaw 0 ⟨false, [97], 1⟩ true,
        fromRaw 1 ⟨false, [98], 1⟩ true] (.owned 0) (.owned 1)
      (by decide) (by decide) (by decide)).2.2,
    by decide⟩

/-- Reading a freshly allocated exact-fit copy of a view. -/
theorem asWStrUnits_fresh (h : Heap) (w : WStrM) :
    asWStrUnits (List.append h
        [fromRaw h.size ⟨w.wide, w.units, w.units.length⟩ false])
      (.owned h.size) = w.units := by
  simp only [asWStrUnits, asWStr, reprWStr]
  rw [getRec_append_self]
  simp only [fromRaw, readPtr]
  rw [getRec_append_self]
  simp [fromRaw, Nat.sub_self]

/-- C10: `to_fully_owned` returns a non-dependent record with the same
character content; it reuses the very record (and leaves the heap
untouched) when the handle is an owning reference to a non-dependent
record, and otherwise (dependent or static) allocates exactly one fresh
non-dependent, non-interned copy. -/
theorem C10_to_fully_owned (h : Heap) (s : AvmStringM) (hw : heapWF h)
    (hs : hWF h s) :
    (getRec (toFullyOwned h s).1 (toFullyOwned h s).2).owner = none ∧
      asWStrUnits (toFullyOwned h s).1 (.owned (toFullyOwned h s).2)
        = asWStrUnits h s ∧
      (∀ A, s = .owned A → (getRec h A).owner = none →
        toFullyOwned h s = (h, A)) ∧
      (∀ A, s = .owned A → (getRec h A).owner.isSome = true →
        (toFullyOwned h s).2 = h.size ∧
          (toFullyOwned h s).1.length = h.length + 1 ∧
          (getRec (toFullyOwned h s).1 h.size).interned = false) ∧
      (∀ w, s = .static w →
        (toFullyOwned h s).2 = h.size ∧
          (toFullyOwned h s).1.length = h.length + 1 ∧
          (getRec (toFullyOwned h s).1 h.size).interned = false) := by
  cases s with
  | static w =>
    refine ⟨?_, ?_, ?_, ?_, ?_⟩
    · show (getRec (List.append h [fromRaw h.size _ false]) h.size).owner
        = none
      rw [getRec_append_self]
      rfl
    · exact asWStrUnits_fresh h w
    · intro A hA
      exact absurd hA (by simp)
    · intro A hA
      exact absurd hA (by simp)
    · intro w2 hw2
      refine ⟨rfl, ?_, ?_⟩
      · show (List.append h [fromRaw h.size _ false]).length = h.length + 1
        simp
      · show (getRec (List.append h [fromRaw h.size _ false])
          h.size).interned = false
        rw [getRec_append_self]
        rfl
  | owned A =>
    by_cases hdep : (getRec h A).owner.isSome
    · have hred : toFullyOwned h (.owned A)
          = (List.append h
              [fromRaw h.size
                ⟨(asWStr h (.owned A)).wide, (asWStr h (.owned A)).units,
                  (asWStr h (.owned A)).units.length⟩ false],
             h.size) := by
        simp only [toFullyOwned, if_pos hdep]
      refine ⟨?_, ?_, ?_, ?_, ?_⟩
      · rw [hred]
        show (getRec (List.append h [fromRaw h.size _ false]) h.size).owner
          = none
        rw [getRec_append_self]
        rfl
      · rw [hred]
        exact asWStrUnits_fresh h (asWStr h (.owned A))
      · rintro A2 heq2 hno
        cases heq2
        rw [Option.isSome_iff_exists] at hdep
        obtain ⟨w2, hw2⟩ := hdep
        rw [hno] at hw2
        cases hw2
      · rintro A2 heq2 -
        cases heq2
        rw [hred]
        refine ⟨rfl, ?_, ?_⟩
        · show (List.append h [fromRaw h.size _ false]).length = h.length + 1
          simp
        · show (getRec (List.append h [fromRaw h.size _ false])
            h.size).interned = false
          rw [getRec_append_self]
          rfl
      · intro w2 hw2
        exact absurd hw2 (by simp)
    · have hred : toFullyOwned h (.owned A) = (h, A) := by
        simp only [toFullyOwned, if_neg hdep]
      refine ⟨?_, ?_, ?_, ?_, ?_⟩
      · rw [hred]
        exact Option.not_isSome_iff_eq_none.mp hdep
      · rw [hred]
      · rintro A2 heq2 -
        cases heq2
        exact hred
      · rintro A2 heq2 hsome
        cases heq2
        exact absurd hsome hdep
      · intro w2 hw2
        exact absurd hw2 (by simp)

theorem C10_witness :
    heapWF exH4d ∧ hWF exH4d (.owned 1) ∧
      ((getRec (toFullyOwned exH4d (.owned 1)).1
          (toFullyOwned exH4d (.owned 1)).2).owner = none ∧
        asWStrUnits (toFullyOwned exH4d (.owned 1)).1
            (.owned (toFullyOwned exH4d (.owned 1)).2)
          = asWStrUnits exH4d (.owned 1) ∧
        (∀ A, (AvmStringM.owned 1 : AvmStringM) = .owned A →
          (getRec exH4d A).owner = none →
          toFullyOwned exH4d (.owned 1) = (exH4d, A)) ∧
        (∀ A, (AvmStringM.owned 1 : AvmStringM) = .owned A →
          (getRec exH4d A).owner.isSome = true →
          (toFullyOwned exH4d (.owned 1)).2 = exH4d.size ∧
            (toFullyOwned exH4d (.owned 1)).1.length = exH4d.length + 1 ∧
            (getRec (toFullyOwned exH4d (.owned 1)).1
              exH4d.size).interned = false) ∧
        (∀ w, (AvmStringM.owned 1 : AvmStringM) = .static w →
          (toFullyOwned exH4d (.owned 1)).2 = exH4d.size ∧
            (toFullyOwned exH4d (.owned 1)).1.length = exH4d.length + 1 ∧
            (getRec (toFullyOwned exH4d (.owned 1)).1
              exH4d.size).interned = false)) ∧
      toFullyOwned exH4d (.owned 0) = (exH4d, 0) ∧
      asWStrUnits (toFullyOwned exH4d (.owned 1)).1
        (.owned (toFullyOwned exH4d (.owned 1)).2) = [98, 99, 100] :=
  ⟨by decide, by decide,
    C10_to_fully_owned exH4d (.owned 1) (by decide) (by decide),
    by decide, by decide⟩
